import Mathlib

/-!
Shallow embedding of the concurrent aggregation store of `src/Source.cpp`
(`Order`, `ConcurrentHashMap`): the data model, the four public operations,
and the operation sequences reachable through the global mutex.

Every public operation of `ConcurrentHashMap` runs its whole body under
`std::lock_guard<std::mutex> lock(mutex_)` (Source.cpp line 125), so one
call is one atomic step on the shared map; a concurrent execution is a
sequence of such steps in lock-acquisition order.  The template is
instantiated at `K = std::string`, `V = int` in `main`; quantities and
prices are modelled as mathematical integers (the spec treats quantity
growth beyond machine range as fatal and outside the contract).
`std::cerr` output is not a caller-visible return value; where an
operation writes an error line to `cerr`, the model carries an explicit
Boolean recording that the not-found branch was taken.
-/

set_option autoImplicit false

namespace Agg

/-- An `Order` (Source.cpp lines 12-46): one price level, holding the
aggregated `lotSize` (a heap-allocated `std::atomic<V>`, modelled as its
integer value) and an immutable `price`. -/
structure Order where
  lotSize : Int
  price : Int
deriving DecidableEq

/-- A symbol's book: the `std::vector<Order<K, V>>` stored per key. -/
abbrev Book := List Order

/-- The protected state `std::unordered_map<K, std::vector<Order<K, V>>> map_`
(Source.cpp line 124), modelled as an association list from symbol to book;
the operations keep its keys unique. -/
abbrev Store := List (String × Book)

/-- `map_.find(symbol)`: the book stored for a symbol, if any. -/
def mapFind : Store → String → Option Book
  | [], _ => none
  | (k, b) :: rest, sym => if k = sym then some b else mapFind rest sym

/-- The scan loop of `insert` (Source.cpp lines 55-67): walk the vector,
and at the first order with the same price add the incoming lot
(`fetch_add`) and stop; if no price matches, `push_back` the new order. -/
def bookInsert : Book → Order → Book
  | [], o => [o]
  | e :: rest, o =>
    if e.price = o.price then
      { e with lotSize := e.lotSize + o.lotSize } :: rest
    else
      e :: bookInsert rest o

/-- `ConcurrentHashMap::insert` (Source.cpp lines 52-68): `map_[symbol]`
default-constructs an empty vector when the symbol is absent, then the
scan loop aggregates or appends.  It has no failure path. -/
def insert : Store → String → Order → Store
  | [], sym, o => [(sym, bookInsert [] o)]
  | (k, b) :: rest, sym, o =>
    if k = sym then (k, bookInsert b o) :: rest
    else (k, b) :: insert rest sym o

/-- `ConcurrentHashMap::remove` (Source.cpp lines 71-79).  The C++ method
returns `void`; the second component records whether the
"Symbol ... not found for removal." line was written to `cerr` (the
not-found branch, which leaves `map_` untouched).  On the found branch
`map_.erase(it)` deletes the symbol's entry. -/
def remove : Store → String → Store × Bool
  | [], _ => ([], true)
  | (k, b) :: rest, sym =>
    if k = sym then (rest, false)
    else
      let r := remove rest sym
      ((k, b) :: r.1, r.2)

/-- `ConcurrentHashMap::getPriceRange` (Source.cpp lines 94-113).  First
component: the `std::pair<int, int>` returned to the caller — the sentinel
`{0, 0}` when the symbol is absent (after logging to `cerr`) or its vector
is empty, otherwise the prices of `std::minmax_element` over the orders
compared by price.  Second component: whether the
"Symbol ... not found for price range." line was written to `cerr`. -/
def getPriceRange (s : Store) (sym : String) : (Int × Int) × Bool :=
  match mapFind s sym with
  | none => ((0, 0), true)
  | some [] => ((0, 0), false)
  | some (o :: rest) =>
    ((rest.foldl (fun m e => min m e.price) o.price,
      rest.foldl (fun m e => max m e.price) o.price), false)

/-- `ConcurrentHashMap::display` (Source.cpp lines 82-91): a `const`
method; the console rendering it produces — per symbol, the
(lotSize, price) pairs of its orders.  It never writes to `map_`. -/
def displayRender (s : Store) : List (String × List (Int × Int)) :=
  s.map fun p => (p.1, p.2.map fun o => (o.lotSize, o.price))

/-- `display` as a state-passing step: its output paired with the map
afterwards.  Being `const`, the method leaves the map as it found it. -/
def displayRun (s : Store) : List (String × List (Int × Int)) × Store :=
  (displayRender s, s)

/-- `getPriceRange` as a state-passing step: its result paired with the
map afterwards; the method is `const` and reads only. -/
def getPriceRangeRun (s : Store) (sym : String) : ((Int × Int) × Bool) × Store :=
  (getPriceRange s sym, s)

/-- The mutating operations of the public contract.  `insert sym price lot`
is `insert(sym, Order<K, V>(lot, price))`; `remove sym` is `remove(sym)`.
The read-only operations do not change the store (see `displayRun`,
`getPriceRangeRun`). -/
inductive Op
  | insert (sym : String) (price : Int) (lot : Int)
  | remove (sym : String)
deriving DecidableEq

/-- One locked critical section: the state change of a single call. -/
def step (s : Store) : Op → Store
  | .insert sym price lot => Agg.insert s sym ⟨lot, price⟩
  | .remove sym => (Agg.remove s sym).1

/-- Run a sequence of calls in lock-acquisition order, starting from `s`.
The map in `main` starts empty, so reachable states are `run [] ops`. -/
def run : Store → List Op → Store
  | s, [] => s
  | s, op :: ops => run (step s op) ops

/-- The quantity the store records at `(sym, p)`: the `lotSize` of the
first order with price `p` in the symbol's book, when both exist. -/
def lotAt (s : Store) (sym : String) (p : Int) : Option Int :=
  (mapFind s sym).bind fun b =>
    (b.find? fun o => o.price == p).map Order.lotSize

/-- Spec invariant I2 as a ledger for one fixed `(sym, p)`: `none` while
no level exists; an insert at the pair adds its quantity (creating the
level from 0 when fresh); any other insert leaves it alone; removing the
symbol destroys the level. -/
def lotLedgerStep (sym : String) (p : Int) (cur : Option Int) : Op → Option Int
  | .insert sym2 p2 q => if sym2 = sym ∧ p2 = p then some (cur.getD 0 + q) else cur
  | .remove sym2 => if sym2 = sym then none else cur

/-- The ledger value after a whole operation sequence from the empty map. -/
def lotLedger (sym : String) (p : Int) (ops : List Op) : Option Int :=
  ops.foldl (lotLedgerStep sym p) none

/-- An operation whose insert quantity (if any) is non-negative. -/
def Op.nonneg : Op → Prop
  | .insert _ _ lot => 0 ≤ lot
  | .remove _ => True

/-- Well-formedness of the modelled `unordered_map` state: keys are
unique, and (invariant I1) each book has at most one order per price. -/
def StoreInv (s : Store) : Prop :=
  (s.map Prod.fst).Nodup ∧ ∀ e ∈ s, (e.2.map Order.price).Nodup

end Agg

namespace Agg

theorem mapFind_insert_self (s : Store) (sym : String) (o : Order) :
    mapFind (insert s sym o) sym = some (bookInsert ((mapFind s sym).getD []) o) := by
  induction s with
  | nil => simp [insert, mapFind]
  | cons e rest ih =>
    obtain ⟨k, b⟩ := e
    by_cases h : k = sym
    · subst h; simp [insert, mapFind]
    · simp [insert, mapFind, h, ih]

theorem mapFind_insert_ne (s : Store) (sym k : String) (o : Order) (h : k ≠ sym) :
    mapFind (insert s sym o) k = mapFind s k := by
  induction s with
  | nil => simp [insert, mapFind, Ne.symm h]
  | cons e rest ih =>
    obtain ⟨k2, b⟩ := e
    by_cases h2 : k2 = sym
    · subst h2
      simp [insert, mapFind, Ne.symm h]
    · simp only [insert, if_neg h2, mapFind]
      by_cases h3 : k2 = k <;> simp [h3, ih]

theorem remove_eq_of_not_found (s : Store) (sym : String) (h : mapFind s sym = none) :
    remove s sym = (s, true) := by
  induction s with
  | nil => rfl
  | cons e rest ih =>
    obtain ⟨k, b⟩ := e
    by_cases h2 : k = sym
    · simp [mapFind, h2] at h
    · simp only [mapFind, if_neg h2] at h
      simp [remove, h2, ih h]

theorem remove_sublist (s : Store) (sym : String) : (remove s sym).1.Sublist s := by
  induction s with
  | nil => simp [remove]
  | cons e rest ih =>
    obtain ⟨k, b⟩ := e
    by_cases h : k = sym
    · simp [remove, h, List.Sublist.cons, List.Sublist.refl]
    · simpa [remove, h] using ih.cons₂ (k, b)

theorem mapFind_eq_none_of_not_mem_keys (s : Store) (sym : String)
    (h : sym ∉ s.map Prod.fst) : mapFind s sym = none := by
  induction s with
  | nil => rfl
  | cons e rest ih =>
    obtain ⟨k, b⟩ := e
    simp only [List.map_cons, List.mem_cons] at h
    push_neg at h
    simp [mapFind, Ne.symm h.1, ih h.2]

theorem mapFind_remove_self (s : Store) (sym : String)
    (h : (s.map Prod.fst).Nodup) : mapFind (remove s sym).1 sym = none := by
  induction s with
  | nil => rfl
  | cons e rest ih =>
    obtain ⟨k, b⟩ := e
    simp only [List.map_cons, List.nodup_cons] at h
    by_cases h2 : k = sym
    · subst h2
      simp only [remove, if_pos rfl]
      exact mapFind_eq_none_of_not_mem_keys rest k h.1
    · simp [remove, h2, mapFind, ih h.2]

theorem mapFind_remove_ne (s : Store) (sym k : String) (h : k ≠ sym) :
    mapFind (remove s sym).1 k = mapFind s k := by
  induction s with
  | nil => rfl
  | cons e rest ih =>
    obtain ⟨k2, b⟩ := e
    by_cases h2 : k2 = sym
    · subst h2
      simp [remove, mapFind, Ne.symm h]
    · simp only [remove, if_neg h2, mapFind]
      by_cases h3 : k2 = k <;> simp [h3, ih]

theorem price_mem_bookInsert (b : Book) (o : Order) (q : Int) :
    q ∈ (bookInsert b o).map Order.price ↔ q ∈ b.map Order.price ∨ q = o.price := by
  induction b with
  | nil => simp [bookInsert]
  | cons e rest ih =>
    by_cases h : e.price = o.price
    · simp only [bookInsert, if_pos h]
      simp only [List.map_cons, List.mem_cons]
      constructor
      · rintro (hq | hq)
        · exact Or.inr (hq.trans h)
        · exact Or.inl (Or.inr hq)
      · rintro ((hq | hq) | hq)
        · exact Or.inl hq
        · exact Or.inr hq
        · exact Or.inl (hq.trans h.symm)
    · simp only [bookInsert, if_neg h, List.map_cons, List.mem_cons, ih]
      tauto

theorem nodup_price_bookInsert (b : Book) (o : Order)
    (h : (b.map Order.price).Nodup) : ((bookInsert b o).map Order.price).Nodup := by
  induction b with
  | nil => simp [bookInsert]
  | cons e rest ih =>
    simp only [List.map_cons, List.nodup_cons] at h
    by_cases h2 : e.price = o.price
    · simpa [bookInsert, h2] using h
    · simp only [bookInsert, if_neg h2, List.map_cons, List.nodup_cons]
      refine ⟨fun hmem => ?_, ih h.2⟩
      rcases (price_mem_bookInsert rest o e.price).1 hmem with hq | hq
      · exact h.1 hq
      · exact h2 hq

theorem find?_bookInsert_self (b : Book) (o : Order) :
    (bookInsert b o).find? (fun e => e.price == o.price) =
      some ⟨((b.find? fun e => e.price == o.price).map Order.lotSize).getD 0 + o.lotSize,
            o.price⟩ := by
  induction b with
  | nil => simp [bookInsert]
  | cons e rest ih =>
    by_cases h : e.price = o.price
    · simp [bookInsert, h, List.find?, zero_add]
    · simp only [bookInsert, if_neg h, List.find?_cons]
      have hb : (e.price == o.price) = false := by simpa using h
      simp [hb, ih]

theorem find?_bookInsert_ne (b : Book) (o : Order) (p : Int) (h : p ≠ o.price) :
    (bookInsert b o).find? (fun e => e.price == p) = b.find? (fun e => e.price == p) := by
  induction b with
  | nil => simp [bookInsert, Ne.symm h]
  | cons e rest ih =>
    by_cases h2 : e.price = o.price
    · simp only [bookInsert, if_pos h2, List.find?_cons]
      have : (e.price == p) = false := by simpa using fun he => h (he ▸ h2.symm).symm
      simp [this]
    · simp only [bookInsert, if_neg h2, List.find?_cons]
      by_cases h3 : e.price = p <;> simp [h3, ih]

end Agg

namespace Agg

theorem find?_bookInsert_mk (b : Book) (q p : Int) :
    (bookInsert b ⟨q, p⟩).find? (fun e => e.price == p) =
      some ⟨((b.find? fun e => e.price == p).map Order.lotSize).getD 0 + q, p⟩ := by
  simpa using find?_bookInsert_self b ⟨q, p⟩

theorem find?_bookInsert_mk_ne (b : Book) (q p2 p : Int) (h : p ≠ p2) :
    (bookInsert b ⟨q, p2⟩).find? (fun e => e.price == p) =
      b.find? (fun e => e.price == p) := by
  simpa using find?_bookInsert_ne b ⟨q, p2⟩ p h

theorem insert_nil (sym : String) (o : Order) :
    insert [] sym o = [(sym, bookInsert [] o)] := rfl

theorem insert_cons_self (k : String) (b : Book) (rest : Store) (o : Order) :
    insert ((k, b) :: rest) k o = (k, bookInsert b o) :: rest := by
  simp [insert]

theorem insert_cons_ne (k sym : String) (b : Book) (rest : Store) (o : Order)
    (h : k ≠ sym) : insert ((k, b) :: rest) sym o = (k, b) :: insert rest sym o := by
  simp [insert, h]

theorem mem_keys_insert (s : Store) (sym k2 : String) (o : Order) :
    k2 ∈ (insert s sym o).map Prod.fst ↔ k2 ∈ s.map Prod.fst ∨ k2 = sym := by
  induction s with
  | nil => simp [insert]
  | cons e rest ih =>
    obtain ⟨k, b⟩ := e
    by_cases h : k = sym
    · subst h
      rw [insert_cons_self]
      simp only [List.map_cons, List.mem_cons]
      tauto
    · rw [insert_cons_ne k sym b rest o h]
      simp only [List.map_cons, List.mem_cons, ih]
      tauto

theorem keys_insert_nodup (s : Store) (sym : String) (o : Order)
    (h : (s.map Prod.fst).Nodup) : ((insert s sym o).map Prod.fst).Nodup := by
  induction s with
  | nil => simp [insert]
  | cons e rest ih =>
    obtain ⟨k, b⟩ := e
    simp only [List.map_cons, List.nodup_cons] at h
    by_cases h2 : k = sym
    · subst h2
      rw [insert_cons_self]
      simp only [List.map_cons, List.nodup_cons]
      exact ⟨h.1, h.2⟩
    · rw [insert_cons_ne k sym b rest o h2]
      simp only [List.map_cons, List.nodup_cons]
      refine ⟨fun hmem => ?_, ih h.2⟩
      rcases (mem_keys_insert rest sym k o).1 hmem with hq | hq
      · exact h.1 hq
      · exact h2 hq

theorem booksNodup_insert (s : Store) (sym : String) (o : Order)
    (h : ∀ e ∈ s, (e.2.map Order.price).Nodup) :
    ∀ e ∈ insert s sym o, (e.2.map Order.price).Nodup := by
  induction s with
  | nil =>
    intro e he
    rw [insert_nil] at he
    simp only [List.mem_singleton] at he
    subst he
    simp [bookInsert]
  | cons e0 rest ih =>
    obtain ⟨k, b⟩ := e0
    by_cases h2 : k = sym
    · subst h2
      intro e he
      rw [insert_cons_self] at he
      simp only [List.mem_cons] at he
      rcases he with he | he
      · subst he
        exact nodup_price_bookInsert b o (h (k, b) (List.mem_cons_self _ _))
      · exact h e (List.mem_cons_of_mem _ he)
    · intro e he
      rw [insert_cons_ne k sym b rest o h2] at he
      simp only [List.mem_cons] at he
      rcases he with he | he
      · subst he
        exact h (k, b) (List.mem_cons_self _ _)
      · exact ih (fun e2 he2 => h e2 (List.mem_cons_of_mem _ he2)) e he

theorem storeInv_insert (s : Store) (sym : String) (o : Order) (h : StoreInv s) :
    StoreInv (insert s sym o) :=
  ⟨keys_insert_nodup s sym o h.1, booksNodup_insert s sym o h.2⟩

theorem storeInv_remove (s : Store) (sym : String) (h : StoreInv s) :
    StoreInv (remove s sym).1 := by
  refine ⟨List.Nodup.sublist ((remove_sublist s sym).map Prod.fst) h.1, ?_⟩
  intro e he
  exact h.2 e ((remove_sublist s sym).subset he)

theorem storeInv_step (s : Store) (op : Op) (h : StoreInv s) : StoreInv (step s op) := by
  cases op with
  | insert sym price lot => exact storeInv_insert s sym ⟨lot, price⟩ h
  | remove sym => exact storeInv_remove s sym h

theorem storeInv_nil : StoreInv ([] : Store) :=
  ⟨List.nodup_nil, by simp⟩

theorem storeInv_run (ops : List Op) : ∀ s : Store, StoreInv s → StoreInv (run s ops) := by
  induction ops with
  | nil => intro s h; exact h
  | cons op rest ih => intro s h; exact ih (step s op) (storeInv_step s op h)

theorem storeInv_reachable (ops : List Op) : StoreInv (run [] ops) :=
  storeInv_run ops [] storeInv_nil

theorem lotAt_insert_self_price (s : Store) (sym : String) (p q : Int) :
    lotAt (insert s sym ⟨q, p⟩) sym p = some ((lotAt s sym p).getD 0 + q) := by
  unfold lotAt
  rw [mapFind_insert_self]
  cases hm : mapFind s sym with
  | none => simp [hm, find?_bookInsert_mk [] q p]
  | some b => simp [hm, find?_bookInsert_mk b q p]

theorem lotAt_insert_other_price (s : Store) (sym : String) (p2 q p : Int) (h : p ≠ p2) :
    lotAt (insert s sym ⟨q, p2⟩) sym p = lotAt s sym p := by
  unfold lotAt
  rw [mapFind_insert_self]
  cases hm : mapFind s sym with
  | none => simp [hm, find?_bookInsert_mk_ne [] q p2 p h]
  | some b => simp [hm, find?_bookInsert_mk_ne b q p2 p h]

theorem lotAt_insert_ne (s : Store) (sym k : String) (o : Order) (p : Int) (h : k ≠ sym) :
    lotAt (insert s sym o) k p = lotAt s k p := by
  unfold lotAt
  rw [mapFind_insert_ne s sym k o h]

theorem lotAt_remove_self (s : Store) (sym : String) (p : Int)
    (h : (s.map Prod.fst).Nodup) : lotAt (remove s sym).1 sym p = none := by
  unfold lotAt
  rw [mapFind_remove_self s sym h]
  rfl

theorem lotAt_remove_ne (s : Store) (sym k : String) (p : Int) (h : k ≠ sym) :
    lotAt (remove s sym).1 k p = lotAt s k p := by
  unfold lotAt
  rw [mapFind_remove_ne s sym k h]

theorem lotAt_step (s : Store) (op : Op) (sym : String) (p : Int) (hs : StoreInv s) :
    lotAt (step s op) sym p = lotLedgerStep sym p (lotAt s sym p) op := by
  cases op with
  | insert sym2 p2 q =>
    by_cases h1 : sym2 = sym
    · subst h1
      by_cases h2 : p2 = p
      · subst h2
        have hl := lotAt_insert_self_price s sym2 p2 q
        simp only [step]
        simp [lotLedgerStep, hl]
      · have hl := lotAt_insert_other_price s sym2 p2 q p (Ne.symm h2)
        simp only [step]
        simp [lotLedgerStep, h2, hl]
    · have hl := lotAt_insert_ne s sym2 sym ⟨q, p2⟩ p (Ne.symm h1)
      simp only [step]
      simp [lotLedgerStep, h1, hl]
  | remove sym2 =>
    by_cases h1 : sym2 = sym
    · subst h1
      have hl := lotAt_remove_self s sym2 p hs.1
      simp [step, lotLedgerStep, hl]
    · have hl := lotAt_remove_ne s sym2 sym p (Ne.symm h1)
      simp [step, lotLedgerStep, h1, hl]

theorem lotAt_run (ops : List Op) : ∀ s : Store, StoreInv s → ∀ (sym : String) (p : Int),
    lotAt (run s ops) sym p = ops.foldl (lotLedgerStep sym p) (lotAt s sym p) := by
  induction ops with
  | nil => intro s _ sym p; rfl
  | cons op rest ih =>
    intro s hs sym p
    simp only [run, List.foldl_cons]
    rw [← lotAt_step s op sym p hs]
    exact ih (step s op) (storeInv_step s op hs) sym p

theorem lotAt_run_empty (ops : List Op) (sym : String) (p : Int) :
    lotAt (run [] ops) sym p = lotLedger sym p ops := by
  have h := lotAt_run ops [] storeInv_nil sym p
  simpa [lotLedger, lotAt, mapFind] using h

end Agg

namespace Agg

theorem run_inserts_aux (sym : String) (p : Int) (qs : List Int) :
    ∀ c : Int, run [(sym, [⟨c, p⟩])] (qs.map (Op.insert sym p)) =
      [(sym, [⟨c + qs.sum, p⟩])] := by
  induction qs with
  | nil => intro c; simp [run]
  | cons q rest ih =>
    intro c
    simp only [List.map_cons, run, step]
    rw [insert_cons_self]
    have hb : bookInsert [(⟨c, p⟩ : Order)] ⟨q, p⟩ = [⟨c + q, p⟩] := by
      simp [bookInsert]
    rw [hb, ih (c + q)]
    simp [List.sum_cons, add_assoc]

theorem run_inserts_cons (sym : String) (p q : Int) (qs : List Int) :
    run [] ((q :: qs).map (Op.insert sym p)) = [(sym, [⟨(q :: qs).sum, p⟩])] := by
  simp only [List.map_cons, run, step]
  rw [insert_nil]
  have hb : bookInsert [] (⟨q, p⟩ : Order) = [⟨q, p⟩] := rfl
  rw [hb, run_inserts_aux sym p qs q]
  simp [List.sum_cons]

theorem minFold_mem (l : List Order) : ∀ a : Int,
    l.foldl (fun m e => min m e.price) a ∈ a :: l.map Order.price := by
  induction l with
  | nil => intro a; simp
  | cons e rest ih =>
    intro a
    simp only [List.foldl_cons, List.map_cons]
    rcases List.mem_cons.1 (ih (min a e.price)) with h | h
    · rcases min_choice a e.price with hm | hm
      · exact List.mem_cons.2 (Or.inl (h.trans hm))
      · exact List.mem_cons.2 (Or.inr (List.mem_cons.2 (Or.inl (h.trans hm))))
    · exact List.mem_cons.2 (Or.inr (List.mem_cons.2 (Or.inr h)))

theorem maxFold_mem (l : List Order) : ∀ a : Int,
    l.foldl (fun m e => max m e.price) a ∈ a :: l.map Order.price := by
  induction l with
  | nil => intro a; simp
  | cons e rest ih =>
    intro a
    simp only [List.foldl_cons, List.map_cons]
    rcases List.mem_cons.1 (ih (max a e.price)) with h | h
    · rcases max_choice a e.price with hm | hm
      · exact List.mem_cons.2 (Or.inl (h.trans hm))
      · exact List.mem_cons.2 (Or.inr (List.mem_cons.2 (Or.inl (h.trans hm))))
    · exact List.mem_cons.2 (Or.inr (List.mem_cons.2 (Or.inr h)))

theorem minFold_le (l : List Order) : ∀ a x : Int,
    x ∈ a :: l.map Order.price → l.foldl (fun m e => min m e.price) a ≤ x := by
  induction l with
  | nil =>
    intro a x hx
    simp only [List.map_nil, List.mem_singleton] at hx
    subst hx
    simp
  | cons e rest ih =>
    intro a x hx
    simp only [List.foldl_cons]
    simp only [List.map_cons, List.mem_cons] at hx
    rcases hx with hx | hx | hx
    · subst hx
      exact le_trans (ih (min x e.price) _ (List.mem_cons_self _ _)) (min_le_left x e.price)
    · subst hx
      exact le_trans (ih (min a e.price) _ (List.mem_cons_self _ _)) (min_le_right a e.price)
    · exact ih (min a e.price) x (List.mem_cons_of_mem _ hx)

theorem le_maxFold (l : List Order) : ∀ a x : Int,
    x ∈ a :: l.map Order.price → x ≤ l.foldl (fun m e => max m e.price) a := by
  induction l with
  | nil =>
    intro a x hx
    simp only [List.map_nil, List.mem_singleton] at hx
    subst hx
    simp
  | cons e rest ih =>
    intro a x hx
    simp only [List.foldl_cons]
    simp only [List.map_cons, List.mem_cons] at hx
    rcases hx with hx | hx | hx
    · subst hx
      exact le_trans (le_max_left x e.price) (ih (max x e.price) _ (List.mem_cons_self _ _))
    · subst hx
      exact le_trans (le_max_right a e.price) (ih (max a e.price) _ (List.mem_cons_self _ _))
    · exact ih (max a e.price) x (List.mem_cons_of_mem _ hx)

theorem mapFind_mem (s : Store) (sym : String) (b : Book)
    (h : mapFind s sym = some b) : (sym, b) ∈ s := by
  induction s with
  | nil => simp [mapFind] at h
  | cons e rest ih =>
    obtain ⟨k, b2⟩ := e
    simp only [mapFind] at h
    by_cases h2 : k = sym
    · subst h2
      rw [if_pos rfl] at h
      injection h with h3
      subst h3
      exact List.mem_cons_self _ _
    · rw [if_neg h2] at h
      exact List.mem_cons_of_mem _ (ih h)

theorem getPriceRange_not_found (s : Store) (sym : String)
    (h : mapFind s sym = none) : getPriceRange s sym = ((0, 0), true) := by
  simp [getPriceRange, h]

theorem getPriceRange_found (s : Store) (sym : String) (o : Order) (rest : Book)
    (h : mapFind s sym = some (o :: rest)) :
    getPriceRange s sym =
      ((rest.foldl (fun m e => min m e.price) o.price,
        rest.foldl (fun m e => max m e.price) o.price), false) := by
  simp [getPriceRange, h]

theorem getPriceRange_bounds (s : Store) (sym : String) (b : Book)
    (hb : mapFind s sym = some b) (hne : b ≠ []) :
    (getPriceRange s sym).1.1 ∈ b.map Order.price ∧
    (getPriceRange s sym).1.2 ∈ b.map Order.price ∧
    ∀ q ∈ b.map Order.price,
      (getPriceRange s sym).1.1 ≤ q ∧ q ≤ (getPriceRange s sym).1.2 := by
  cases b with
  | nil => exact absurd rfl hne
  | cons o rest =>
    rw [getPriceRange_found s sym o rest hb]
    refine ⟨?_, ?_, ?_⟩
    · simpa using minFold_mem rest o.price
    · simpa using maxFold_mem rest o.price
    · intro q hq
      simp only [List.map_cons, List.mem_cons] at hq
      constructor
      · exact minFold_le rest o.price q (List.mem_cons.2 hq)
      · exact le_maxFold rest o.price q (List.mem_cons.2 hq)

end Agg

namespace Agg

/-- C1: the claim requires `priceRange` on a symbol with no Book to report
a distinguishable "symbol not found" outcome and never the sentinel (0,0).
The code instead logs to `cerr` and returns the pair (0,0) for an absent
symbol — the very value it returns for a legitimate book whose only price
level is price 0, so the caller-visible value cannot distinguish the two.
This theorem evaluates the code at both inputs and shows the alias. -/
theorem claim_C1_sentinel :
    getPriceRange [] "NOSYM" = ((0, 0), true) ∧
    getPriceRange [("ZERO", [⟨5, 0⟩])] "ZERO" = ((0, 0), false) ∧
    (getPriceRange [] "NOSYM").1 = (getPriceRange [("ZERO", [⟨5, 0⟩])] "ZERO").1 := by
  decide

/-- C2: the claim requires `remove` on an absent symbol to report a
caller-observable "symbol not found" error value.  The code's `remove`
returns `void`; on an absent symbol it only writes a line to `cerr`
(the `true` flag below) and leaves the map unchanged — success-shaped
control flow with no error value returned to the caller.  This theorem
evaluates the code on the failing inputs. -/
theorem claim_C2_silent :
    remove ([] : Store) "NOSYM" = ([], true) ∧
    remove [("B", [⟨1, 2⟩])] "NOSYM" = ([("B", [⟨1, 2⟩])], true) := by
  decide

/-- C3: for every symbol S, price P, and finite nonempty sequence of
inserts at (S, P) with non-negative quantities q1..qn (no intervening
remove of S), the store afterwards holds exactly one PriceLevel at
(S, P) — the symbol's book is literally the one-order book — and its
quantity equals q1+…+qn. -/
theorem claim_C3_aggregation (sym : String) (p : Int) (qs : List Int)
    (hne : qs ≠ []) (hpos : ∀ q ∈ qs, 0 ≤ q) :
    mapFind (run [] (qs.map (Op.insert sym p))) sym = some [⟨qs.sum, p⟩] := by
  cases qs with
  | nil => exact absurd rfl hne
  | cons q rest =>
    rw [run_inserts_cons sym p q rest]
    simp [mapFind]

/-- Witness for C3 at S = "A", P = 2, quantities [10, 20]: one level of
quantity 30 at price 2, matching the spec's worked example. -/
theorem claim_C3_witness :
    mapFind (run [] ([(10 : Int), 20].map (Op.insert "A" 2))) "A" =
      some [⟨[(10 : Int), 20].sum, 2⟩] :=
  claim_C3_aggregation "A" 2 [10, 20] (by decide) (by decide)

/-- C4: inserts at distinct prices for one symbol create separate
PriceLevels (the spec's example yields the two-level book and price range
(2,5)), and for every symbol with a non-empty book `getPriceRange`
returns the minimum and the maximum of the book's prices. -/
theorem claim_C4_price_range :
    (∀ sym : String,
      run [] [Op.insert sym 2 10, Op.insert sym 5 20] =
          [(sym, [⟨10, 2⟩, ⟨20, 5⟩])] ∧
        getPriceRange (run [] [Op.insert sym 2 10, Op.insert sym 5 20]) sym =
          ((2, 5), false)) ∧
    (∀ (s : Store) (sym : String) (b : Book), mapFind s sym = some b → b ≠ [] →
      (getPriceRange s sym).1.1 ∈ b.map Order.price ∧
      (getPriceRange s sym).1.2 ∈ b.map Order.price ∧
      ∀ q ∈ b.map Order.price,
        (getPriceRange s sym).1.1 ≤ q ∧ q ≤ (getPriceRange s sym).1.2) := by
  constructor
  · intro sym
    have hrun : run [] [Op.insert sym 2 10, Op.insert sym 5 20] =
        [(sym, [⟨10, 2⟩, ⟨20, 5⟩])] := by
      simp only [run, step]
      rw [insert_nil]
      have h1 : bookInsert [] (⟨10, 2⟩ : Order) = [⟨10, 2⟩] := rfl
      rw [h1, insert_cons_self]
      have h2 : bookInsert [(⟨10, 2⟩ : Order)] ⟨20, 5⟩ = [⟨10, 2⟩, ⟨20, 5⟩] := by
        norm_num [bookInsert]
      rw [h2]
    refine ⟨hrun, ?_⟩
    rw [hrun]
    have hm : mapFind [(sym, [(⟨10, 2⟩ : Order), ⟨20, 5⟩])] sym =
        some [⟨10, 2⟩, ⟨20, 5⟩] := by simp [mapFind]
    rw [getPriceRange_found _ sym ⟨10, 2⟩ [⟨20, 5⟩] hm]
    norm_num
  · exact fun s sym b hb hne => getPriceRange_bounds s sym b hb hne

/-- Witness for C4's general min/max part on the two-level book of the
spec's example. -/
theorem claim_C4_witness :
    (getPriceRange [("A", [⟨10, 2⟩, ⟨20, 5⟩])] "A").1.1 ∈
      ([⟨10, 2⟩, ⟨20, 5⟩] : Book).map Order.price ∧
    (getPriceRange [("A", [⟨10, 2⟩, ⟨20, 5⟩])] "A").1.2 ∈
      ([⟨10, 2⟩, ⟨20, 5⟩] : Book).map Order.price ∧
    ∀ q ∈ ([⟨10, 2⟩, ⟨20, 5⟩] : Book).map Order.price,
      (getPriceRange [("A", [⟨10, 2⟩, ⟨20, 5⟩])] "A").1.1 ≤ q ∧
      q ≤ (getPriceRange [("A", [⟨10, 2⟩, ⟨20, 5⟩])] "A").1.2 :=
  claim_C4_price_range.2 [("A", [⟨10, 2⟩, ⟨20, 5⟩])] "A" [⟨10, 2⟩, ⟨20, 5⟩]
    (by decide) (by decide)

/-- C5: after any insert(S, …) followed by remove(S), starting from any
reachable store, the symbol has no Book, a subsequent remove(S) takes its
symbol-not-found branch (cerr log, map untouched), and a subsequent
priceRange(S) takes its symbol-not-found branch (cerr log and sentinel):
removal is terminal for the symbol's Book. -/
theorem claim_C5_removal_terminal (ops : List Op) (sym : String) (price lot : Int) :
    mapFind (remove (insert (run [] ops) sym ⟨lot, price⟩) sym).1 sym = none ∧
    remove (remove (insert (run [] ops) sym ⟨lot, price⟩) sym).1 sym =
      ((remove (insert (run [] ops) sym ⟨lot, price⟩) sym).1, true) ∧
    getPriceRange (remove (insert (run [] ops) sym ⟨lot, price⟩) sym).1 sym =
      ((0, 0), true) := by
  have hinv : StoreInv (insert (run [] ops) sym ⟨lot, price⟩) :=
    storeInv_insert _ sym _ (storeInv_reachable ops)
  have hnone : mapFind (remove (insert (run [] ops) sym ⟨lot, price⟩) sym).1 sym = none :=
    mapFind_remove_self _ sym hinv.1
  exact ⟨hnone, remove_eq_of_not_found _ sym hnone, getPriceRange_not_found _ sym hnone⟩

/-- C6 (invariant I1): in every store state reachable by insert/remove
sequences from the empty store, every symbol's book has at most one
PriceLevel per distinct price. -/
theorem claim_C6_unique_price (ops : List Op) (sym : String) (b : Book)
    (h : mapFind (run [] ops) sym = some b) : (b.map Order.price).Nodup :=
  (storeInv_reachable ops).2 (sym, b) (mapFind_mem _ sym b h)

/-- Witness for C6 after two inserts at distinct prices. -/
theorem claim_C6_witness : (([⟨10, 2⟩, ⟨1, 5⟩] : Book).map Order.price).Nodup :=
  claim_C6_unique_price [Op.insert "A" 2 10, Op.insert "A" 5 1] "A"
    [⟨10, 2⟩, ⟨1, 5⟩] (by decide)

/-- C7 (invariant I2): in every reachable state the quantity recorded at
(S, P) equals the ledger of quantities inserted at (S, P) since the Book
was (re)created (`lotLedger`), and a present quantity never decreases
under any operation other than remove(S), provided insert quantities are
non-negative. -/
theorem claim_C7_ledger :
    (∀ (ops : List Op) (sym : String) (p : Int),
      lotAt (run [] ops) sym p = lotLedger sym p ops) ∧
    (∀ (ops : List Op) (op : Op) (sym : String) (p q : Int),
      Op.nonneg op → op ≠ Op.remove sym →
      lotAt (run [] ops) sym p = some q →
      ∃ q2, lotAt (step (run [] ops) op) sym p = some q2 ∧ q ≤ q2) := by
  constructor
  · exact fun ops sym p => lotAt_run_empty ops sym p
  · intro ops op sym p q hnn hnr hq
    rw [lotAt_step (run [] ops) op sym p (storeInv_reachable ops), hq]
    cases op with
    | insert sym2 p2 lot =>
      by_cases hc : sym2 = sym ∧ p2 = p
      · simp only [lotLedgerStep, if_pos hc]
        exact ⟨q + lot, rfl, le_add_of_nonneg_right hnn⟩
      · simp only [lotLedgerStep, if_neg hc]
        exact ⟨q, rfl, le_refl q⟩
    | remove sym2 =>
      have hs2 : sym2 ≠ sym := fun he => hnr (by rw [he])
      simp only [lotLedgerStep, if_neg hs2]
      exact ⟨q, rfl, le_refl q⟩

/-- Witness for C7's monotonicity part: a second insert of 5 at ("A", 2)
on top of 10 leaves some quantity at least 10. -/
theorem claim_C7_witness :
    ∃ q2, lotAt (step (run [] [Op.insert "A" 2 10]) (Op.insert "A" 2 5)) "A" 2 =
      some q2 ∧ (10 : Int) ≤ q2 :=
  claim_C7_ledger.2 [Op.insert "A" 2 10] (Op.insert "A" 2 5) "A" 2 10
    (by norm_num [Op.nonneg]) (by decide) (by decide)

/-- C8: one mutex guards every operation (Source.cpp line 125), so each
call is an atomic critical section and an interleaving of N threads is a
total order of their N calls — the lock-acquisition order.  For every N,
every symbol and price, and every such interleaving of N inserts of
quantity 1 at (S, P), the final quantity is exactly N: no lost updates. -/
theorem claim_C8_no_lost_updates (N : Nat) (sym : String) (p : Int) (ops : List Op)
    (hall : ∀ op ∈ ops, op = Op.insert sym p 1) (hlen : ops.length = N)
    (hpos : 0 < N) : lotAt (run [] ops) sym p = some (N : Int) := by
  have hrep : ops = List.replicate N (Op.insert sym p 1) :=
    List.eq_replicate_iff.2 ⟨hlen, hall⟩
  cases N with
  | zero => omega
  | succ n =>
    rw [hrep, ← List.map_replicate, List.replicate_succ,
      run_inserts_cons sym p 1 (List.replicate n 1)]
    have hsum : ((1 : Int) :: List.replicate n (1 : Int)).sum = (n : Int) + 1 := by
      simp [List.sum_replicate, nsmul_eq_mul]
      omega
    rw [hsum]
    simp [lotAt, mapFind]

/-- Witness for C8 with N = 3 threads. -/
theorem claim_C8_witness :
    lotAt (run [] (List.replicate 3 (Op.insert "A" 2 1))) "A" 2 =
      some ((3 : Nat) : Int) :=
  claim_C8_no_lost_updates 3 "A" 2 (List.replicate 3 (Op.insert "A" 2 1))
    (by decide) (by decide) (by decide)

/-- C9: the read-only operations (`getPriceRange`, `display`) return the
map exactly as they found it in every state, and `remove` on an absent
symbol leaves the symbol-to-book mapping exactly unchanged (its error
path creates no book and alters nothing). -/
theorem claim_C9_frame :
    (∀ (s : Store) (sym : String), (getPriceRangeRun s sym).2 = s) ∧
    (∀ s : Store, (displayRun s).2 = s) ∧
    (∀ (s : Store) (sym : String), mapFind s sym = none → remove s sym = (s, true)) :=
  ⟨fun _ _ => rfl, fun _ => rfl, fun s sym h => remove_eq_of_not_found s sym h⟩

/-- Witness for C9's remove-frame part on a store not containing "A". -/
theorem claim_C9_witness :
    remove [("B", [⟨1, 2⟩])] "A" = ([("B", [⟨1, 2⟩])], true) :=
  claim_C9_frame.2.2 [("B", [⟨1, 2⟩])] "A" (by decide)

/-- C10: an insert of quantity 0 at a fresh (symbol, price) still creates
a PriceLevel holding quantity 0, that price participates in the price
range, and for a book whose only level is price 0 the returned range
value (0,0) coincides with the value returned for an absent symbol. -/
theorem claim_C10_zero_quantity (sym : String) (p : Int) :
    lotAt (insert [] sym ⟨0, p⟩) sym p = some 0 ∧
    (getPriceRange (insert [] sym ⟨0, p⟩) sym).1 = (p, p) ∧
    (getPriceRange ([] : Store) sym).1 = (0, 0) ∧
    (getPriceRange (insert [] sym ⟨0, 0⟩) sym).1 = (getPriceRange ([] : Store) sym).1 := by
  have hb : ∀ p2 : Int, insert [] sym (⟨0, p2⟩ : Order) = [(sym, [⟨0, p2⟩])] :=
    fun p2 => rfl
  refine ⟨?_, ?_, rfl, ?_⟩
  · rw [hb p]
    simp [lotAt, mapFind]
  · rw [hb p]
    have hm : mapFind [(sym, [(⟨0, p⟩ : Order)])] sym = some [⟨0, p⟩] := by
      simp [mapFind]
    rw [getPriceRange_found _ sym ⟨0, p⟩ [] hm]
    simp
  · rw [hb 0]
    have hm : mapFind [(sym, [(⟨0, 0⟩ : Order)])] sym = some [⟨0, 0⟩] := by
      simp [mapFind]
    rw [getPriceRange_found _ sym ⟨0, 0⟩ [] hm]
    rfl

end Agg
